import Mathlib

/-!
# Verification of the seaverse-go HMAC signature package

This development embeds the Go package `signature/v1` (file `hmac.go`) in
Lean 4 and proves properties of its canonicalization and signing logic.

The embedding models:

* Go `map[string]any` parameter mappings as association lists
  `List (String × GoValue)` (unique keys correspond to `List.Nodup` of the
  key projection); the possibly-`nil` map is `Option (List (String × GoValue))`.
* the dynamic `any` values accepted by `valueToString` as the closed
  inductive `GoValue`;
* Go's `[]byte(s)` conversion of a string as UTF-8 encoding, written out
  explicitly (`utf8Bytes`, `strBytes`);
* the Go standard library functions the package calls
  (`crypto/sha256`, `crypto/hmac`, `crypto/subtle.ConstantTimeCompare`,
  `encoding/hex`, `strconv`) as executable Lean functions following their
  documented algorithms (FIPS 180-4 for SHA-256, RFC 2104 for HMAC);
* `sort.Strings` (an in-place comparison sort, ascending by Go's byte-wise
  string order) as `List.insertionSort` over the byte-wise order — any
  correct sort of a list whose keys are distinct produces this result.

Machine integers are modelled as `Nat`/`Int` with explicit `% 2^w` where
the algorithms reduce modulo a word size.  `float32`/`float64` values are
modelled by their exact value `m * 2^e`; IEEE 754 exponent-range clamping
(overflow/subnormals) is not modelled, which is faithful for every
normal-range float.
-/

namespace SeaverseSig

/-! ## UTF-8 byte encoding: Go `[]byte(s)` on a (valid-Unicode) string -/

/-- The UTF-8 encoding of a single Unicode scalar value, as its list of
bytes.  This is the byte sequence Go produces for the character inside
`[]byte(s)`. -/
def utf8Bytes (c : Char) : List Nat :=
  let n := c.toNat
  if n < 0x80 then [n]
  else if n < 0x800 then [0xC0 + n / 0x40, 0x80 + n % 0x40]
  else if n < 0x10000 then
    [0xE0 + n / 0x1000, 0x80 + n / 0x40 % 0x40, 0x80 + n % 0x40]
  else
    [0xF0 + n / 0x40000, 0x80 + n / 0x1000 % 0x40, 0x80 + n / 0x40 % 0x40,
      0x80 + n % 0x40]

/-- The concatenated UTF-8 bytes of a character list. -/
def utf8Concat (l : List Char) : List Nat :=
  l.foldr (fun c acc => utf8Bytes c ++ acc) []

/-- Go's `[]byte(s)`: the UTF-8 bytes of a string. -/
def strBytes (s : String) : List Nat :=
  utf8Concat s.data

/-! ## Go dynamic values

The closed set of dynamic types the `valueToString` type switch in
`hmac.go` enumerates, plus `nil` and the string type tested by the
`v == nil || v == ""` filter.  Floating-point values are carried as their
exact value `m * 2^e` (sign in `m`). -/

/-- A Go `any` value as accepted by the signature package. -/
inductive GoValue where
  | goNil : GoValue
  | str : String → GoValue
  | int : Int → GoValue
  | int32 : Int → GoValue
  | int64 : Int → GoValue
  | uint : Nat → GoValue
  | uint32 : Nat → GoValue
  | uint64 : Nat → GoValue
  | float32 : Int → Int → GoValue
  | float64 : Int → Int → GoValue
  | bool : Bool → GoValue
deriving DecidableEq

/-! ## Decimal formatting of integers: `strconv.Itoa` / `FormatInt` / `FormatUint` -/

/-- Decimal digits of `n` (most significant first), `fuel`-bounded
structural recursion; `fuel ≥ n` suffices. -/
def natDigitsAux : Nat → Nat → List Char
  | 0, _ => []
  | fuel + 1, n =>
    if n = 0 then []
    else natDigitsAux fuel (n / 10) ++ [Char.ofNat (48 + n % 10)]

/-- Base-10 rendering of a natural number, as produced by
`strconv.FormatUint`. -/
def natToDecimal (n : Nat) : String :=
  if n = 0 then "0" else String.mk (natDigitsAux n n)

/-- Base-10 rendering of an integer, as produced by `strconv.Itoa` /
`strconv.FormatInt`. -/
def intToDecimal (n : Int) : String :=
  if n < 0 then "-" ++ natToDecimal n.natAbs else natToDecimal n.natAbs

/-! ## Shortest round-trip decimal formatting of binary floats

`strconv.FormatFloat(v, 'f', -1, bitSize)` renders the shortest decimal
string, without exponent notation, that parses back (at `bitSize`) to the
same float.  The model below computes exactly that: it normalizes the
float value to `sig * 2^e` with `sig` of `prec` significand bits
(`prec = 53` for `float64`, `24` for `float32`), then searches for the
smallest number of significant decimal digits whose round-to-nearest-even
decimal rendering of the value parses back to the same `(sig, e)`. -/

/-- Number of binary digits of `n` (`0` for `0`), fuel-bounded;
`fuel ≥ n` suffices. -/
def bitlenAux : Nat → Nat → Nat
  | 0, _ => 0
  | fuel + 1, n => if n = 0 then 0 else bitlenAux fuel (n / 2) + 1

/-- Number of binary digits of `n`. -/
def bitlen (n : Nat) : Nat := bitlenAux n n

/-- Number of decimal digits of `n` (`0` for `0`), fuel-bounded. -/
def declenAux : Nat → Nat → Nat
  | 0, _ => 0
  | fuel + 1, n => if n = 0 then 0 else declenAux fuel (n / 10) + 1

/-- Number of decimal digits of `n`. -/
def declen (n : Nat) : Nat := declenAux n n

/-- `a / b` rounded to the nearest integer, ties to even. -/
def roundDivEven (a b : Nat) : Nat :=
  let q := a / b
  let r := a % b
  if 2 * r < b then q
  else if b < 2 * r then q + 1
  else if q % 2 = 0 then q else q + 1

/-- Round `(num / den) / 2^e` to the nearest integer, ties to even. -/
def shiftDiv (num den : Nat) (e : Int) : Nat :=
  if 0 ≤ e then roundDivEven num (den * 2 ^ e.toNat)
  else roundDivEven (num * 2 ^ (-e).toNat) den

/-- Raise the binary exponent until the rounded significand fits in
`prec` bits. -/
def fpAdjust (prec num den : Nat) : Nat → Int → Nat × Int
  | 0, e => (shiftDiv num den e, e)
  | fuel + 1, e =>
    let q := shiftDiv num den e
    if q < 2 ^ prec then (q, e) else fpAdjust prec num den fuel (e + 1)

/-- Round the positive rational `num / den` to a binary float with a
`prec`-bit significand (round to nearest, ties to even): the result
`(sig, e)` satisfies `sig * 2^e ≈ num / den` with
`2^(prec-1) ≤ sig < 2^prec` (and `(0, 0)` for zero).  Exponent-range
clamping of IEEE 754 is not modelled. -/
def roundToFP (prec num den : Nat) : Nat × Int :=
  if num = 0 ∨ den = 0 then (0, 0)
  else fpAdjust prec num den 4 ((bitlen num : Int) - (bitlen den : Int) - prec)

/-- Is `10^t ≤ num / den`? -/
def ratPow10Le (num den : Nat) (t : Int) : Bool :=
  if 0 ≤ t then den * 10 ^ t.toNat ≤ num else den ≤ num * 10 ^ (-t).toNat

/-- Adjust a decimal-exponent guess to the true `⌊log10 (num/den)⌋`. -/
def decExpAdjust (num den : Nat) : Nat → Int → Int
  | 0, t => t
  | fuel + 1, t =>
    if ratPow10Le num den (t + 1) then decExpAdjust num den fuel (t + 1)
    else if ratPow10Le num den t then t
    else decExpAdjust num den fuel (t - 1)

/-- `⌊log10 (num/den)⌋` for a positive rational. -/
def decExpOf (num den : Nat) : Int :=
  decExpAdjust num den 4 ((declen num : Int) - (declen den : Int))

/-- Round the positive rational `num / den` to `P` significant decimal
digits (nearest, ties to even): the result `(D, s)` represents
`D * 10^s` with `D` of at most `P` digits; `d10 = ⌊log10 (num/den)⌋`. -/
def decCandidate (num den : Nat) (d10 : Int) (P : Nat) : Nat × Int :=
  let s : Int := d10 - P + 1
  let D := if 0 ≤ s then roundDivEven num (den * 10 ^ s.toNat)
           else roundDivEven (num * 10 ^ (-s).toNat) den
  if 10 ^ P ≤ D then (D / 10, s + 1) else (D, s)

/-- Parse the decimal `D * 10^s` to a `prec`-bit binary float
(round to nearest, ties to even) — the model of `strconv.ParseFloat`
on the decimals the round-trip search produces. -/
def parseDecToFP (prec : Nat) (D : Nat) (s : Int) : Nat × Int :=
  if 0 ≤ s then roundToFP prec (D * 10 ^ s.toNat) 1
  else roundToFP prec D (10 ^ (-s).toNat)

/-- Search for the smallest number `P` of significant decimal digits whose
`P`-digit rounding of the float `sig * 2^e = num / den` parses back to
exactly `(sig, e)`; 17 digits always round-trip a 53-bit float. -/
def shortestDigitsAux (prec num den : Nat) (sig : Nat) (e : Int) (d10 : Int) :
    Nat → Nat → Nat × Int
  | 0, P => decCandidate num den d10 P
  | fuel + 1, P =>
    let c := decCandidate num den d10 P
    if parseDecToFP prec c.1 c.2 = (sig, e) then c
    else shortestDigitsAux prec num den sig e d10 fuel (P + 1)

/-- The shortest round-tripping decimal `(D, s)` (value `D * 10^s`) for the
float `sig * 2^e`, with `num / den` its value as a rational. -/
def shortestDigits (prec num den : Nat) (sig : Nat) (e : Int) : Nat × Int :=
  shortestDigitsAux prec num den sig e (decExpOf num den) 17 1

/-- Render `D * 10^s` (with `D > 0`) as a plain decimal string, no
exponent notation — the `'f'` format of `strconv.FormatFloat`. -/
def renderDecimal (D : Nat) (s : Int) : String :=
  let ds := natDigitsAux D D
  if 0 ≤ s then String.mk ds ++ String.mk (List.replicate s.toNat '0')
  else
    let k := (-s).toNat
    if k < ds.length then
      String.mk (ds.take (ds.length - k)) ++ "." ++
        String.mk (ds.drop (ds.length - k))
    else
      "0." ++ String.mk (List.replicate (k - ds.length) '0') ++ String.mk ds

/-- The numerator of `a * 2^e` as a fraction in lowest binary terms. -/
def pow2Num (a : Nat) (e : Int) : Nat :=
  if 0 ≤ e then a * 2 ^ e.toNat else a

/-- The denominator of `a * 2^e` as a fraction in lowest binary terms. -/
def pow2Den (e : Int) : Nat :=
  if 0 ≤ e then 1 else 2 ^ (-e).toNat

/-- Model of `strconv.FormatFloat(v, 'f', -1, bitSize)` on the float value
`mRaw * 2^eRaw` with a `prec`-bit significand (`prec = 53` for `float64`,
`24` for `float32`): the shortest decimal string, without exponent
notation, that parses back (at `prec` bits) to the same value. -/
def goFormatFloat (prec : Nat) (mRaw eRaw : Int) : String :=
  if mRaw = 0 then "0"
  else
    let a := mRaw.natAbs
    let sigE := roundToFP prec (pow2Num a eRaw) (pow2Den eRaw)
    let num := pow2Num sigE.1 sigE.2
    let den := pow2Den sigE.2
    let c := shortestDigits prec num den sigE.1 sigE.2
    (if mRaw < 0 then "-" else "") ++ renderDecimal c.1 c.2

/-! ## The `Signer` and its canonicalization (`hmac.go`) -/

/-- `Signer` holds the HMAC secret key (`NewSigner` wraps it). -/
structure Signer where
  secret : String

/-- `NewSigner` creates a new `Signer` with the provided secret key. -/
def NewSigner (secret : String) : Signer := ⟨secret⟩

/-- `valueToString` of `hmac.go`: converts a dynamic value to its string
form.  `nil` maps to `""`; strings pass through; integers render in base
10 (`strconv.Itoa` / `FormatInt` / `FormatUint`); floats use
`strconv.FormatFloat(·, 'f', -1, 32/64)`; booleans use
`strconv.FormatBool`.  The `default` arm of the Go type switch
(`fmt.Sprintf("%v", val)`) is unreachable for the closed `GoValue` type,
which enumerates exactly the listed cases. -/
def Signer.valueToString (_s : Signer) : GoValue → String
  | .goNil => ""
  | .str v => v
  | .int n => intToDecimal n
  | .int32 n => intToDecimal n
  | .int64 n => intToDecimal n
  | .uint n => natToDecimal n
  | .uint32 n => natToDecimal n
  | .uint64 n => natToDecimal n
  | .float32 m e => goFormatFloat 24 m e
  | .float64 m e => goFormatFloat 53 m e
  | .bool b => if b then "true" else "false"

/-- The filter `v == nil || v == ""` in the first loop of
`buildSignatureString`: an interface comparison that is true exactly for
`nil` and for the string value `""`. -/
def isNilOrEmptyStr : GoValue → Bool
  | .goNil => true
  | .str v => v == ""
  | _ => false

/-- Go's byte-wise (lexicographic) string order `a <= b`, on UTF-8 byte
lists — the order used by `sort.Strings`. -/
def bytesLe : List Nat → List Nat → Bool
  | [], _ => true
  | _ :: _, [] => false
  | a :: as, b :: bs => if a < b then true else if b < a then false else bytesLe as bs

/-- Go's `a <= b` on strings: byte-wise lexicographic order of the UTF-8
encodings. -/
def keyLe (a b : String) : Prop := bytesLe (strBytes a) (strBytes b) = true

instance : DecidableRel keyLe := fun a b =>
  if h : bytesLe (strBytes a) (strBytes b) = true then .isTrue h else .isFalse h

/-- Go map indexing `params[k]` on the association-list model: the value
of the (unique) entry with key `k`, or the zero value `nil` when the key
is absent. -/
def goIndex (params : List (String × GoValue)) (k : String) : GoValue :=
  match params.find? (fun kv => kv.1 == k) with
  | some kv => kv.2
  | none => .goNil

/-- The first loop of `buildSignatureString`: collect the keys of the
entries whose value passes the `v == nil || v == ""` filter (in map
iteration order). -/
def sigKeys (params : List (String × GoValue)) : List String :=
  (params.filter (fun kv => !isNilOrEmptyStr kv.2)).map Prod.fst

/-- The second loop of `buildSignatureString`: for each surviving key in
sorted order, convert `params[k]`, skip entries whose converted value is
empty, and emit `key=value`.  `sort.Strings` is modelled by
`List.insertionSort` over Go's byte-wise string order. -/
def Signer.sigPairs (s : Signer) (params : List (String × GoValue)) : List String :=
  (List.insertionSort keyLe (sigKeys params)).filterMap (fun k =>
    let strValue := s.valueToString (goIndex params k)
    if strValue = "" then none else some (k ++ "=" ++ strValue))

/-- `buildSignatureString` of `hmac.go`: the canonical string — filtered,
key-sorted `key=value` pairs joined by `&` (the final loop `result += "&"
… result += pair` is exactly `String.intercalate "&"`). -/
def Signer.buildSignatureString (s : Signer) (params : List (String × GoValue)) : String :=
  String.intercalate "&" (s.sigPairs params)

/-! ## SHA-256 (Go `crypto/sha256`, FIPS 180-4) over byte lists -/

/-- Reduce modulo the 32-bit word size. -/
def w32 (x : Nat) : Nat := x % 4294967296

/-- 32-bit right rotation (on a word `< 2^32`). -/
def rotr32 (n x : Nat) : Nat := x / 2 ^ n ||| x % 2 ^ n * 2 ^ (32 - n)

/-- 32-bit complement (bitwise NOT on a word `< 2^32`). -/
def not32 (x : Nat) : Nat := x ^^^ 4294967295

/-- Big-endian word from (at most four) bytes. -/
def wordOfBytes (l : List Nat) : Nat := l.foldl (fun acc b => acc * 256 + b) 0

/-- The four big-endian bytes of a 32-bit word. -/
def wordBytes (x : Nat) : List Nat :=
  [x / 16777216 % 256, x / 65536 % 256, x / 256 % 256, x % 256]

/-- The `n` big-endian bytes of `x`. -/
def beBytes (n x : Nat) : List Nat :=
  (List.range n).map (fun i => x / 256 ^ (n - 1 - i) % 256)

/-- The SHA-256 round constants (FIPS 180-4 §4.2.2, here in decimal). -/
def sha256K : List Nat :=
  [1116352408, 1899447441, 3049323471, 3921009573, 961987163, 1508970993,
   2453635748, 2870763221, 3624381080, 310598401, 607225278, 1426881987,
   1925078388, 2162078206, 2614888103, 3248222580, 3835390401, 4022224774,
   264347078, 604807628, 770255983, 1249150122, 1555081692, 1996064986,
   2554220882, 2821834349, 2952996808, 3210313671, 3336571891, 3584528711,
   113926993, 338241895, 666307205, 773529912, 1294757372, 1396182291,
   1695183700, 1986661051, 2177026350, 2456956037, 2730485921, 2820302411,
   3259730800, 3345764771, 3516065817, 3600352804, 4094571909, 275423344,
   430227734, 506948616, 659060556, 883997877, 958139571, 1322822218,
   1537002063, 1747873779, 1955562222, 2024104815, 2227730452, 2361852424,
   2428436474, 2756734187, 3204031479, 3329325298]

/-- The SHA-256 working state: eight 32-bit words. -/
structure Sha256State where
  a : Nat
  b : Nat
  c : Nat
  d : Nat
  e : Nat
  f : Nat
  g : Nat
  h : Nat

/-- The SHA-256 initial hash value (FIPS 180-4 §5.3.3, in decimal). -/
def sha256Init : Sha256State :=
  ⟨1779033703, 3144134277, 1013904242, 2773480762,
   1359893119, 2600822924, 528734635, 1541459225⟩

/-- The 64-word message schedule of a 64-byte block. -/
def sha256Schedule (block : List Nat) : List Nat :=
  let w16 := (List.range 16).map (fun i => wordOfBytes ((block.drop (4 * i)).take 4))
  (List.range 48).foldl (fun w t =>
    let x15 := w.getD (t + 1) 0
    let x2 := w.getD (t + 14) 0
    let s0 := rotr32 7 x15 ^^^ rotr32 18 x15 ^^^ x15 / 2 ^ 3
    let s1 := rotr32 17 x2 ^^^ rotr32 19 x2 ^^^ x2 / 2 ^ 10
    w ++ [w32 (w.getD t 0 + s0 + w.getD (t + 9) 0 + s1)]) w16

/-- The SHA-256 compression function on one 64-byte block. -/
def sha256Compress (st : Sha256State) (block : List Nat) : Sha256State :=
  let w := sha256Schedule block
  let r := (List.range 64).foldl (fun s t =>
    let S1 := rotr32 6 s.e ^^^ rotr32 11 s.e ^^^ rotr32 25 s.e
    let ch := s.e &&& s.f ^^^ not32 s.e &&& s.g
    let t1 := w32 (s.h + S1 + ch + sha256K.getD t 0 + w.getD t 0)
    let S0 := rotr32 2 s.a ^^^ rotr32 13 s.a ^^^ rotr32 22 s.a
    let maj := s.a &&& s.b ^^^ s.a &&& s.c ^^^ s.b &&& s.c
    let t2 := w32 (S0 + maj)
    ⟨w32 (t1 + t2), s.a, s.b, s.c, w32 (s.d + t1), s.e, s.f, s.g⟩) st
  ⟨w32 (st.a + r.a), w32 (st.b + r.b), w32 (st.c + r.c), w32 (st.d + r.d),
   w32 (st.e + r.e), w32 (st.f + r.f), w32 (st.g + r.g), w32 (st.h + r.h)⟩

/-- SHA-256 padding: `0x80`, zeros to 56 mod 64, then the 64-bit
big-endian bit length. -/
def sha256Pad (msg : List Nat) : List Nat :=
  msg ++ [0x80] ++ List.replicate ((55 - msg.length % 64 + 64) % 64) 0 ++
    beBytes 8 (msg.length * 8 % 2 ^ 64)

/-- The SHA-256 digest (32 bytes) of a byte list. -/
def sha256 (msg : List Nat) : List Nat :=
  let p := sha256Pad msg
  let st := (List.range (p.length / 64)).foldl
    (fun st i => sha256Compress st ((p.drop (64 * i)).take 64)) sha256Init
  wordBytes st.a ++ wordBytes st.b ++ wordBytes st.c ++ wordBytes st.d ++
    wordBytes st.e ++ wordBytes st.f ++ wordBytes st.g ++ wordBytes st.h

/-! ## HMAC (Go `crypto/hmac`, RFC 2104) and hex encoding -/

/-- HMAC-SHA256 of `msg` under `key` (block size 64): hash an over-long
key, zero-pad to the block, XOR with the inner/outer pads, and hash
twice. -/
def hmacSha256 (key msg : List Nat) : List Nat :=
  let k1 := if 64 < key.length then sha256 key else key
  let k2 := k1 ++ List.replicate (64 - k1.length) 0
  sha256 ((k2.map (fun b => b ^^^ 0x5c)) ++
    sha256 ((k2.map (fun b => b ^^^ 0x36)) ++ msg))

/-- The lower-case hex digit characters (`encoding/hex`'s `hextable`). -/
def hexDigitChar (n : Nat) : Char := "0123456789abcdef".data.getD n '0'

/-- The two lower-case hex characters of one byte
(`hextable[b>>4]`, `hextable[b&0x0f]`). -/
def byteToHex (b : Nat) : List Char := [hexDigitChar (b / 16), hexDigitChar (b % 16)]

/-- `hex.EncodeToString`: lower-case hex of a byte list. -/
def hexEncode (bytes : List Nat) : String :=
  String.mk (bytes.foldr (fun b acc => byteToHex b ++ acc) [])

/-! ## Constant-time comparison (Go `crypto/subtle`, used by `hmac.Equal`) -/

/-- `subtle.ConstantTimeCompare` (as the Boolean `hmac.Equal` returns):
false on a length mismatch, otherwise the OR-accumulated XOR of all byte
pairs compared with zero — no early exit on a mismatch. -/
def constantTimeCompare (x y : List Nat) : Bool :=
  if x.length = y.length then
    ((x.zip y).foldl (fun v p => v ||| (p.1 ^^^ p.2)) 0) == 0
  else false

/-- The same loop instrumented with an iteration count: the first
component is the comparison result, the second the number of byte
operations the loop performs. -/
def ctCompareTraced (x y : List Nat) : Bool × Nat :=
  if x.length = y.length then
    let r := (x.zip y).foldl (fun vn p => (vn.1 ||| (p.1 ^^^ p.2), vn.2 + 1)) (0, 0)
    (r.1 == 0, r.2)
  else (false, 0)

/-! ## `Sign` and `Verify` -/

/-- The signature `Sign` produces for a present (non-`nil`) mapping: the
lower-case hex of the HMAC-SHA256 tag of the canonical string under the
secret. -/
def Signer.signatureOf (s : Signer) (params : List (String × GoValue)) : String :=
  hexEncode (hmacSha256 (strBytes s.secret) (strBytes (s.buildSignatureString params)))

/-- `Sign` of `hmac.go`: errors on a `nil` mapping, otherwise the hex
HMAC-SHA256 signature of the canonical string. -/
def Signer.Sign (s : Signer) (params : Option (List (String × GoValue))) :
    Except String String :=
  match params with
  | none => .error "params cannot be nil"
  | some l => .ok (s.signatureOf l)

/-- `Verify` of `hmac.go`: recomputes the expected signature via `Sign`,
propagates its error, and otherwise compares byte-wise with `hmac.Equal`
(constant-time), reporting the outcome as a Boolean. -/
def Signer.Verify (s : Signer) (params : Option (List (String × GoValue)))
    (signature : String) : Except String Bool :=
  match s.Sign params with
  | .error e => .error e
  | .ok expected => .ok (constantTimeCompare (strBytes expected) (strBytes signature))

/-! ## Auxiliary definitions for the statements -/

/-- Decidable equality of `Except` results (both components decidable). -/
instance {ε α : Type} [DecidableEq ε] [DecidableEq α] : DecidableEq (Except ε α) :=
  fun x y =>
    match x, y with
    | .error a, .error b =>
      if h : a = b then .isTrue (by rw [h]) else .isFalse (by simp [h])
    | .ok a, .ok b =>
      if h : a = b then .isTrue (by rw [h]) else .isFalse (by simp [h])
    | .error _, .ok _ => .isFalse (by simp)
    | .ok _, .error _ => .isFalse (by simp)

/-- Is `c` one of the lower-case hexadecimal characters `0-9`, `a-f`?
(The check the package's own test applies to every signature.) -/
def isLowerHexChar (c : Char) : Bool :=
  ('0' ≤ c && c ≤ '9') || ('a' ≤ c && c ≤ 'f')

/-- The mapping invariant of a Go `map[string]any` in the association-list
model: keys are distinct. -/
def NodupKeys (l : List (String × GoValue)) : Prop := (l.map Prod.fst).Nodup

instance : DecidablePred NodupKeys := fun l =>
  inferInstanceAs (Decidable (l.map Prod.fst).Nodup)

/-- Key order lifted to entries. -/
def entryLe (p q : String × GoValue) : Prop := keyLe p.1 q.1

instance : DecidableRel entryLe := fun p q =>
  inferInstanceAs (Decidable (keyLe p.1 q.1))

/-- The canonicalization algorithm exactly as the specification words it:
drop every entry whose value is the absent marker or empty text (or whose
converted textual form is empty), sort the surviving entries by key in
byte-wise ascending order, and join the `key=value` pairs with `&`. -/
def specCanonical (s : Signer) (params : List (String × GoValue)) : String :=
  String.intercalate "&"
    ((List.insertionSort entryLe
        (params.filter
          (fun kv => !isNilOrEmptyStr kv.2 && !(s.valueToString kv.2 == "")))).map
      (fun kv => kv.1 ++ "=" ++ s.valueToString kv.2))

/-! ## Lemmas about the constant-time comparison -/

theorem lor_eq_zero (a b : Nat) : a ||| b = 0 ↔ a = 0 ∧ b = 0 := by
  constructor
  · intro h
    constructor <;>
    · apply Nat.eq_of_testBit_eq
      intro i
      have h2 := congrArg (fun x => Nat.testBit x i) h
      simp only [Nat.testBit_lor, Nat.zero_testBit, Bool.or_eq_false_iff] at h2
      simp [h2.1, h2.2]
  · rintro ⟨rfl, rfl⟩
    rfl

theorem foldl_or_xor (l : List (Nat × Nat)) (a : Nat) :
    l.foldl (fun v p => v ||| (p.1 ^^^ p.2)) a = 0 ↔ a = 0 ∧ ∀ p ∈ l, p.1 = p.2 := by
  induction l generalizing a with
  | nil => simp
  | cons p t ih =>
    simp only [List.foldl_cons, ih, lor_eq_zero, Nat.xor_eq_zero, List.forall_mem_cons]
    tauto

theorem eq_of_zip_eq (x : List Nat) : ∀ y : List Nat, x.length = y.length →
    (∀ p ∈ x.zip y, p.1 = p.2) → x = y := by
  induction x with
  | nil => intro y hl _; cases y with | nil => rfl | cons b bs => simp at hl
  | cons a as ih =>
    intro y hl h
    cases y with
    | nil => simp at hl
    | cons b bs =>
      simp only [List.zip_cons_cons, List.forall_mem_cons] at h
      simp only [List.length_cons, Nat.add_right_cancel_iff] at hl
      rw [h.1, ih bs hl h.2]

theorem mem_zip_self (x : List Nat) : ∀ p ∈ x.zip x, p.1 = p.2 := by
  induction x with
  | nil => simp
  | cons a as ih => simpa using ih

/-- The comparison `hmac.Equal` performs is exactly byte-list equality. -/
theorem constantTimeCompare_iff (x y : List Nat) :
    constantTimeCompare x y = true ↔ x = y := by
  unfold constantTimeCompare
  by_cases hl : x.length = y.length
  · rw [if_pos hl, beq_iff_eq, foldl_or_xor]
    constructor
    · intro h
      exact eq_of_zip_eq x y hl h.2
    · intro h
      subst h
      exact ⟨rfl, mem_zip_self x⟩
  · rw [if_neg hl]
    simp only [Bool.false_eq_true, false_iff]
    intro h
    exact hl (by rw [h])

theorem foldl_pair_count (l : List (Nat × Nat)) :
    ∀ a n, l.foldl (fun vn p => (vn.1 ||| (p.1 ^^^ p.2), vn.2 + 1)) (a, n) =
      (l.foldl (fun v p => v ||| (p.1 ^^^ p.2)) a, n + l.length) := by
  induction l with
  | nil => intro a n; simp
  | cons p t ih =>
    intro a n
    simp only [List.foldl_cons, ih, List.length_cons]
    exact congrArg _ (by omega)

/-- The instrumented loop computes the same Boolean as the comparison. -/
theorem ctCompareTraced_fst (x y : List Nat) :
    (ctCompareTraced x y).1 = constantTimeCompare x y := by
  unfold ctCompareTraced constantTimeCompare
  by_cases hl : x.length = y.length
  · rw [if_pos hl, if_pos hl, foldl_pair_count]
  · rw [if_neg hl, if_neg hl]

/-- The number of byte operations the comparison loop performs depends
only on the two lengths, never on the byte values: all pairs are visited
on equal lengths, none on a length mismatch. -/
theorem ctCompareTraced_snd (x y : List Nat) :
    (ctCompareTraced x y).2 = if x.length = y.length then x.length else 0 := by
  unfold ctCompareTraced
  by_cases hl : x.length = y.length
  · rw [if_pos hl, if_pos hl, foldl_pair_count]
    simp [List.length_zip, hl]
  · rw [if_neg hl, if_neg hl]

/-! ## Lemmas about hex encoding and digest shape -/

theorem strng_length_mk (l : List Char) : (String.mk l).length = l.length := rfl

theorem hexEncode_data (bs : List Nat) :
    (hexEncode bs).data = bs.foldr (fun b acc => byteToHex b ++ acc) [] := rfl

theorem hexEncode_length (bs : List Nat) : (hexEncode bs).length = 2 * bs.length := by
  show (bs.foldr (fun b acc => byteToHex b ++ acc) []).length = 2 * bs.length
  induction bs with
  | nil => rfl
  | cons b t ih =>
    rw [List.foldr_cons, List.length_append, ih]
    simp only [byteToHex, List.length_cons, List.length_nil]
    omega

theorem sha256_length (msg : List Nat) : (sha256 msg).length = 32 := by
  simp [sha256, wordBytes]

theorem hmacSha256_length (key msg : List Nat) : (hmacSha256 key msg).length = 32 := by
  unfold hmacSha256
  exact sha256_length _

theorem mem_hexEncode_data (bs : List Nat) (ch : Char) :
    ch ∈ (hexEncode bs).data → ∃ n, ch = hexDigitChar n := by
  rw [hexEncode_data]
  induction bs with
  | nil => simp
  | cons b t ih =>
    intro h
    simp only [List.foldr_cons, List.mem_append] at h
    rcases h with h | h
    · simp only [byteToHex, List.mem_cons, List.not_mem_nil, or_false] at h
      rcases h with h | h
      · exact ⟨b / 16, h⟩
      · exact ⟨b % 16, h⟩
    · exact ih h

theorem hexDigitChar_isLowerHex (n : Nat) : isLowerHexChar (hexDigitChar n) = true := by
  by_cases h : n < 16
  · interval_cases n <;> decide
  · rw [hexDigitChar, List.getD_eq_default]
    · decide
    · simpa using Nat.le_of_not_lt h

theorem hexDigitChar_ascii (n : Nat) : (hexDigitChar n).toNat < 128 := by
  by_cases h : n < 16
  · interval_cases n <;> decide
  · rw [hexDigitChar, List.getD_eq_default]
    · decide
    · simpa using Nat.le_of_not_lt h

theorem utf8Bytes_of_ascii {c : Char} (h : c.toNat < 128) : utf8Bytes c = [c.toNat] := by
  simp [utf8Bytes, h]

/-! ## Injectivity of the UTF-8 encoding

UTF-8 is a prefix code: the leading byte of a character's encoding
determines its length class, so the concatenated encoding of a character
list decodes uniquely.  This underlies antisymmetry of Go's byte-wise
string order. -/

theorem char_eq_of_toNat_eq {a b : Char} (h : a.toNat = b.toNat) : a = b := by
  apply Char.ext
  apply UInt32.ext
  exact h

theorem utf8Bytes_ne_nil (c : Char) : utf8Bytes c ≠ [] := by
  simp only [utf8Bytes]
  split_ifs <;> simp

theorem utf8_decode {c1 c2 : Char} {t1 t2 : List Nat}
    (h : utf8Bytes c1 ++ t1 = utf8Bytes c2 ++ t2) : c1 = c2 ∧ t1 = t2 := by
  simp only [utf8Bytes] at h
  split_ifs at h <;>
  · simp only [List.cons_append, List.nil_append, List.cons.injEq] at h
    obtain ⟨e1, et⟩ := h
    first
    | exact ⟨char_eq_of_toNat_eq (by omega), et⟩
    | (exfalso; omega)
    | (obtain ⟨e2, et⟩ := et
       first
       | exact ⟨char_eq_of_toNat_eq (by omega), et⟩
       | (exfalso; omega)
       | (obtain ⟨e3, et⟩ := et
          first
          | exact ⟨char_eq_of_toNat_eq (by omega), et⟩
          | (exfalso; omega)
          | (obtain ⟨e4, et⟩ := et
             exact ⟨char_eq_of_toNat_eq (by omega), et⟩)))

theorem utf8Concat_inj : ∀ l1 l2 : List Char, utf8Concat l1 = utf8Concat l2 → l1 = l2 := by
  intro l1
  induction l1 with
  | nil =>
    intro l2 h
    cases l2 with
    | nil => rfl
    | cons c t =>
      exfalso
      have : utf8Bytes c ++ utf8Concat t = [] := by
        simpa [utf8Concat] using h.symm
      exact utf8Bytes_ne_nil c (List.append_eq_nil.mp this).1
  | cons c t ih =>
    intro l2 h
    cases l2 with
    | nil =>
      exfalso
      have : utf8Bytes c ++ utf8Concat t = [] := by
        simpa [utf8Concat] using h
      exact utf8Bytes_ne_nil c (List.append_eq_nil.mp this).1
    | cons c2 t2 =>
      have h2 : utf8Bytes c ++ utf8Concat t = utf8Bytes c2 ++ utf8Concat t2 := by
        simpa [utf8Concat] using h
      obtain ⟨hc, ht⟩ := utf8_decode h2
      rw [hc, ih t2 ht]

theorem strBytes_inj {a b : String} (h : strBytes a = strBytes b) : a = b := by
  apply String.ext
  exact utf8Concat_inj _ _ h

/-! ## Go's byte-wise string order: totality, transitivity, antisymmetry -/

theorem bytesLe_total : ∀ x y : List Nat, bytesLe x y = true ∨ bytesLe y x = true := by
  intro x
  induction x with
  | nil => intro y; left; rfl
  | cons a as ih =>
    intro y
    cases y with
    | nil => right; rfl
    | cons b bs =>
      by_cases hab : a < b
      · left; simp [bytesLe, hab]
      · by_cases hba : b < a
        · right; simp [bytesLe, hba]
        · have : a = b := by omega
          subst this
          rcases ih bs with h | h
          · left; simpa [bytesLe] using h
          · right; simpa [bytesLe] using h

theorem bytesLe_trans : ∀ x y z : List Nat,
    bytesLe x y = true → bytesLe y z = true → bytesLe x z = true := by
  intro x
  induction x with
  | nil => intro y z _ _; rfl
  | cons a as ih =>
    intro y z h1 h2
    cases y with
    | nil => simp [bytesLe] at h1
    | cons b bs =>
      cases z with
      | nil => simp [bytesLe] at h2
      | cons c cs =>
        simp only [bytesLe] at h1 h2 ⊢
        split_ifs at h1 h2 ⊢ <;> first | rfl | omega | exact ih bs cs h1 h2

theorem bytesLe_antisymm : ∀ x y : List Nat,
    bytesLe x y = true → bytesLe y x = true → x = y := by
  intro x
  induction x with
  | nil =>
    intro y _ h2
    cases y with
    | nil => rfl
    | cons b bs => simp [bytesLe] at h2
  | cons a as ih =>
    intro y h1 h2
    cases y with
    | nil => simp [bytesLe] at h1
    | cons b bs =>
      simp only [bytesLe] at h1 h2
      split_ifs at h1 h2 <;> first | omega | (simp_all)
      · have hab : a = b := by omega
        subst hab
        simp [List.cons.injEq, ih bs h1 h2]

instance : IsTotal String keyLe := ⟨fun a b => bytesLe_total _ _⟩

instance : IsTrans String keyLe := ⟨fun _ _ _ => bytesLe_trans _ _ _⟩

instance : IsAntisymm String keyLe :=
  ⟨fun _ _ h1 h2 => strBytes_inj (bytesLe_antisymm _ _ h1 h2)⟩

/-! ## Association-list facts: unique keys and map indexing -/

instance : IsTotal (String × GoValue) entryLe := ⟨fun p q => total_of keyLe p.1 q.1⟩

instance : IsTrans (String × GoValue) entryLe :=
  ⟨fun _ _ _ h1 h2 => bytesLe_trans _ _ _ h1 h2⟩

/-- With distinct keys, indexing returns the value of the entry. -/
theorem goIndex_of_mem : ∀ (l : List (String × GoValue)) {k : String} {v : GoValue},
    NodupKeys l → (k, v) ∈ l → goIndex l k = v := by
  intro l
  induction l with
  | nil => intro k v _ hm; simp at hm
  | cons kv t ih =>
    intro k v hnd hm
    obtain ⟨k', v'⟩ := kv
    simp only [NodupKeys, List.map_cons, List.nodup_cons] at hnd
    rcases List.mem_cons.mp hm with h | h
    · simp only [Prod.mk.injEq] at h
      obtain ⟨hk, hv⟩ := h
      subst hk
      subst hv
      simp [goIndex]
    · by_cases hk : (k' == k) = true
      · exfalso
        have hmem : k ∈ t.map Prod.fst := List.mem_map.mpr ⟨(k, v), h, rfl⟩
        rw [show k' = k from by simpa using hk] at hnd
        exact hnd.1 hmem
      · unfold goIndex
        rw [List.find?_cons_of_neg _ (by simpa using hk)]
        exact ih hnd.2 h

/-- Every surviving key comes from an entry that passed the filter. -/
theorem mem_of_mem_sigKeys {l : List (String × GoValue)} {k : String}
    (h : k ∈ sigKeys l) : ∃ v, (k, v) ∈ l ∧ isNilOrEmptyStr v = false := by
  obtain ⟨kv, hkv, rfl⟩ := List.mem_map.mp h
  have := List.mem_filter.mp hkv
  exact ⟨kv.2, by simpa using this.1, by simpa using this.2⟩

/-- Two key-sorted entry lists holding the same entries, with distinct
keys, are equal — `entryLe` compares only keys, so distinctness of keys
substitutes for antisymmetry. -/
theorem sorted_perm_nodupKeys_eq : ∀ (l1 l2 : List (String × GoValue)),
    l1.Perm l2 → l1.Sorted entryLe → l2.Sorted entryLe → NodupKeys l1 → l1 = l2 := by
  intro l1
  induction l1 with
  | nil =>
    intro l2 hp _ _ _
    exact List.Perm.nil_eq hp
  | cons a t1 ih =>
    intro l2 hp hs1 hs2 hnd
    cases l2 with
    | nil => exact absurd hp.symm (by simp)
    | cons b t2 =>
      have hab : a = b := by
        by_contra hne
        have ha2 : a ∈ b :: t2 := hp.mem_iff.mp (List.mem_cons_self a t1)
        have hb1 : b ∈ a :: t1 := hp.symm.mem_iff.mp (List.mem_cons_self b t2)
        have ha2' : a ∈ t2 := by
          rcases List.mem_cons.mp ha2 with h | h
          · exact absurd h hne
          · exact h
        have hb1' : b ∈ t1 := by
          rcases List.mem_cons.mp hb1 with h | h
          · exact absurd h.symm hne
          · exact h
        have h1 : entryLe a b := (List.sorted_cons.mp hs1).1 b hb1'
        have h2 : entryLe b a := (List.sorted_cons.mp hs2).1 a ha2'
        have hkeys : a.1 = b.1 :=
          strBytes_inj (bytesLe_antisymm _ _ h1 h2)
        simp only [NodupKeys, List.map_cons, List.nodup_cons] at hnd
        exact hnd.1 (hkeys ▸ List.mem_map.mpr ⟨b, hb1', rfl⟩)
      subst hab
      have ht : t1.Perm t2 := hp.cons_inv
      simp only [NodupKeys, List.map_cons, List.nodup_cons] at hnd
      rw [ih t2 ht (List.sorted_cons.mp hs1).2 (List.sorted_cons.mp hs2).2 hnd.2]

/-- The second loop of `buildSignatureString` — sorted keys, indexed back
into the map — visits exactly the filtered entries in key-sorted order. -/
theorem sorted_keys_to_entries (l : List (String × GoValue)) (hnd : NodupKeys l) :
    (List.insertionSort keyLe (sigKeys l)).map (fun k => (k, goIndex l k)) =
      List.insertionSort entryLe (l.filter (fun kv => !isNilOrEmptyStr kv.2)) := by
  have hperm1 : (List.insertionSort keyLe (sigKeys l)).Perm (sigKeys l) :=
    List.perm_insertionSort keyLe (sigKeys l)
  have hmapfix :
      (sigKeys l).map (fun k => (k, goIndex l k)) =
        l.filter (fun kv => !isNilOrEmptyStr kv.2) := by
    unfold sigKeys
    rw [List.map_map]
    have : ∀ kv ∈ l.filter (fun kv => !isNilOrEmptyStr kv.2),
        ((fun k => (k, goIndex l k)) ∘ Prod.fst) kv = id kv := by
      intro kv hkv
      have hmem : kv ∈ l := (List.mem_filter.mp hkv).1
      have : goIndex l kv.1 = kv.2 := goIndex_of_mem l hnd (by simpa using hmem)
      simp [this]
    rw [List.map_congr_left this, List.map_id]
  apply sorted_perm_nodupKeys_eq
  · have hp2 : ((List.insertionSort keyLe (sigKeys l)).map (fun k => (k, goIndex l k))).Perm
        (l.filter (fun kv => !isNilOrEmptyStr kv.2)) := by
      rw [← hmapfix]
      exact hperm1.map _
    exact hp2.trans (List.perm_insertionSort entryLe _).symm
  · exact List.Pairwise.map _ (fun a b h => h)
      (List.sorted_insertionSort keyLe (sigKeys l))
  · exact List.sorted_insertionSort entryLe _
  · unfold NodupKeys
    rw [List.map_map]
    rw [show Prod.fst ∘ (fun k => (k, goIndex l k)) = id from rfl, List.map_id]
    have hsub : List.Sublist (sigKeys l) (l.map Prod.fst) :=
      (List.filter_sublist l).map Prod.fst
    exact (hperm1.nodup_iff).mpr (hnd.sublist hsub)

theorem NodupKeys.filter {l : List (String × GoValue)} (R : String × GoValue → Bool)
    (hnd : NodupKeys l) : NodupKeys (l.filter R) :=
  hnd.sublist ((List.filter_sublist l).map Prod.fst)

theorem NodupKeys.perm {l1 l2 : List (String × GoValue)} (hp : l1.Perm l2)
    (hnd : NodupKeys l1) : NodupKeys l2 :=
  ((hp.map Prod.fst).nodup_iff).mp hnd

theorem NodupKeys.sortEntries {l : List (String × GoValue)} (hnd : NodupKeys l) :
    NodupKeys (List.insertionSort entryLe l) :=
  hnd.perm (List.perm_insertionSort entryLe l).symm

/-- Unrolling the second loop: filtering on the converted value commutes
with emitting pairs. -/
theorem filterMap_keys_eq (s : Signer) (l : List (String × GoValue)) (ks : List String) :
    ks.filterMap (fun k =>
      let strValue := s.valueToString (goIndex l k)
      if strValue = "" then none else some (k ++ "=" ++ strValue)) =
    ((ks.map (fun k => (k, goIndex l k))).filter
        (fun kv => !(s.valueToString kv.2 == ""))).map
      (fun kv => kv.1 ++ "=" ++ s.valueToString kv.2) := by
  induction ks with
  | nil => rfl
  | cons k t ih =>
    simp only [List.filterMap_cons, List.map_cons, List.filter_cons]
    by_cases h : s.valueToString (goIndex l k) = ""
    · simp [h, ih]
    · simp [h, ih]

/-- Filtering a key-sorted entry list (distinct keys) is the same as
sorting the filtered list. -/
theorem filter_insertionSort_comm (R : String × GoValue → Bool)
    (l : List (String × GoValue)) (hnd : NodupKeys l) :
    (List.insertionSort entryLe l).filter R = List.insertionSort entryLe (l.filter R) := by
  apply sorted_perm_nodupKeys_eq
  · exact (((List.perm_insertionSort entryLe l).filter R).trans
      (List.perm_insertionSort entryLe (l.filter R)).symm)
  · exact List.Pairwise.filter R (List.sorted_insertionSort entryLe l)
  · exact List.sorted_insertionSort entryLe _
  · exact (hnd.sortEntries).filter R

/-- The pairs the canonicalization emits: the filtered entries in
key-sorted order, rendered as `key=value`. -/
theorem sigPairs_canonical (s : Signer) (l : List (String × GoValue)) (hnd : NodupKeys l) :
    s.sigPairs l =
      ((List.insertionSort entryLe (l.filter (fun kv => !isNilOrEmptyStr kv.2))).filter
          (fun kv => !(s.valueToString kv.2 == ""))).map
        (fun kv => kv.1 ++ "=" ++ s.valueToString kv.2) := by
  unfold Signer.sigPairs
  rw [filterMap_keys_eq s l, sorted_keys_to_entries l hnd]

/-- The canonical string the code builds coincides with the
specification's reference definition on every mapping with distinct
keys. -/
theorem buildSignatureString_eq_spec (s : Signer) (l : List (String × GoValue))
    (hnd : NodupKeys l) : s.buildSignatureString l = specCanonical s l := by
  unfold Signer.buildSignatureString specCanonical
  rw [sigPairs_canonical s l hnd,
    filter_insertionSort_comm _ _ (hnd.filter _), List.filter_filter]
  have hfc : List.filter (fun a => !s.valueToString a.2 == "" && !isNilOrEmptyStr a.2) l =
      List.filter (fun kv => !isNilOrEmptyStr kv.2 && !(s.valueToString kv.2 == "")) l := by
    apply List.filter_congr
    intro kv _
    rw [Bool.and_comm]
  rw [hfc]

/-- The canonical string of a mapping with distinct keys does not depend
on the iteration order of the entries. -/
theorem buildSignatureString_perm (s : Signer) {l1 l2 : List (String × GoValue)}
    (hp : l1.Perm l2) (hnd : NodupKeys l1) :
    s.buildSignatureString l1 = s.buildSignatureString l2 := by
  have hnd2 : NodupKeys l2 := hnd.perm hp
  unfold Signer.buildSignatureString
  rw [sigPairs_canonical s l1 hnd, sigPairs_canonical s l2 hnd2]
  have hsorteq :
      List.insertionSort entryLe (l1.filter (fun kv => !isNilOrEmptyStr kv.2)) =
        List.insertionSort entryLe (l2.filter (fun kv => !isNilOrEmptyStr kv.2)) := by
    apply sorted_perm_nodupKeys_eq
    · exact (List.perm_insertionSort entryLe _).trans
        ((hp.filter _).trans (List.perm_insertionSort entryLe _).symm)
    · exact List.sorted_insertionSort entryLe _
    · exact List.sorted_insertionSort entryLe _
    · exact (hnd.filter _).sortEntries
  rw [hsorteq]

/-! ## Shape of the emitted signature -/

theorem signatureOf_length (s : Signer) (l : List (String × GoValue)) :
    (s.signatureOf l).length = 64 := by
  unfold Signer.signatureOf
  rw [hexEncode_length, hmacSha256_length]

theorem signatureOf_lowerHex (s : Signer) (l : List (String × GoValue)) :
    (s.signatureOf l).data.all isLowerHexChar = true := by
  rw [List.all_eq_true]
  intro ch hch
  obtain ⟨n, rfl⟩ := mem_hexEncode_data _ ch hch
  exact hexDigitChar_isLowerHex n

theorem signatureOf_ascii (s : Signer) (l : List (String × GoValue)) {ch : Char}
    (hch : ch ∈ (s.signatureOf l).data) : ch.toNat < 128 := by
  obtain ⟨n, rfl⟩ := mem_hexEncode_data _ ch hch
  exact hexDigitChar_ascii n

/-! ## Flipping one character of an ASCII string changes its bytes -/

theorem utf8Concat_append (l1 l2 : List Char) :
    utf8Concat (l1 ++ l2) = utf8Concat l1 ++ utf8Concat l2 := by
  induction l1 with
  | nil => rfl
  | cons c t ih => simp [utf8Concat, List.foldr_cons, List.append_assoc] at ih ⊢; rw [ih]

theorem utf8Bytes_length_of_not_ascii {c : Char} (h : 128 ≤ c.toNat) :
    2 ≤ (utf8Bytes c).length := by
  simp only [utf8Bytes]
  split_ifs with h1 h2 h3 <;> simp <;> omega

theorem strBytes_flip_ne (pre post : List Char) {c c' : Char} (hc : c.toNat < 128)
    (hne : c' ≠ c) :
    strBytes (String.mk (pre ++ c :: post)) ≠ strBytes (String.mk (pre ++ c' :: post)) := by
  intro h
  have hsplit : ∀ d : Char, strBytes (String.mk (pre ++ d :: post)) =
      utf8Concat pre ++ (utf8Bytes d ++ utf8Concat post) := by
    intro d
    show utf8Concat (pre ++ d :: post) = _
    rw [utf8Concat_append]
    rfl
  rw [hsplit c, hsplit c'] at h
  have h2 := List.append_cancel_left h
  rw [utf8Bytes_of_ascii hc] at h2
  by_cases hc' : c'.toNat < 128
  · rw [utf8Bytes_of_ascii hc'] at h2
    simp only [List.cons_append, List.nil_append, List.cons.injEq] at h2
    exact hne (char_eq_of_toNat_eq h2.1.symm)
  · have hlen := congrArg List.length h2
    have hge : 2 ≤ (utf8Bytes c').length :=
      utf8Bytes_length_of_not_ascii (Nat.le_of_not_lt hc')
    simp only [List.length_append, List.length_cons, List.length_nil] at hlen
    omega

/-! ## The empty key sorts first -/

theorem bytesLe_nil_right {x : List Nat} (h : bytesLe x [] = true) : x = [] := by
  cases x with
  | nil => rfl
  | cons a as => simp [bytesLe] at h

theorem sorted_keys_head_empty : ∀ (ks : List String), List.Sorted keyLe ks →
    "" ∈ ks → ∃ t, ks = "" :: t := by
  intro ks hs hm
  cases ks with
  | nil => simp at hm
  | cons k t =>
    rcases List.mem_cons.mp hm with h | h
    · exact ⟨t, by rw [← h]⟩
    · have hle : keyLe k "" := (List.sorted_cons.mp hs).1 "" h
      have hk : k = "" := strBytes_inj (bytesLe_nil_right hle)
      exact ⟨t, by rw [hk]⟩

/-! ## The claims -/

/-- C1: For every non-nil parameter mapping, the canonical string built
before hashing equals the reference definition — drop entries whose value
is nil or empty text (or whose converted form is empty), sort the
surviving keys byte-wise ascending, join `key=value` pairs with `&`, the
empty mapping yielding the empty string; in particular
`{"a":"1","b":"","c":null,"d":"4"}` canonicalizes to `"a=1&d=4"` and
`{"action":"create","timestamp":"1234567890","user_id":"12345"}` to
`"action=create&timestamp=1234567890&user_id=12345"`. -/
theorem c1_canonical_matches_reference :
    (∀ (s : Signer) (l : List (String × GoValue)), NodupKeys l →
      s.buildSignatureString l = specCanonical s l) ∧
    (∀ s : Signer, s.buildSignatureString [] = "") ∧
    (NewSigner "test").buildSignatureString
        [("a", .str "1"), ("b", .str ""), ("c", .goNil), ("d", .str "4")] = "a=1&d=4" ∧
    (NewSigner "test").buildSignatureString
        [("action", .str "create"), ("timestamp", .str "1234567890"),
          ("user_id", .str "12345")]
      = "action=create&timestamp=1234567890&user_id=12345" :=
  ⟨fun s l h => buildSignatureString_eq_spec s l h, fun _ => rfl, by decide, by decide⟩

theorem c1_witness :
    NodupKeys [("d", GoValue.str "4"), ("a", GoValue.str "1"), ("c", GoValue.goNil)] ∧
    (NewSigner "w").buildSignatureString
        [("d", GoValue.str "4"), ("a", GoValue.str "1"), ("c", GoValue.goNil)] =
      specCanonical (NewSigner "w")
        [("d", GoValue.str "4"), ("a", GoValue.str "1"), ("c", GoValue.goNil)] :=
  ⟨by decide, c1_canonical_matches_reference.1 (NewSigner "w") _ (by decide)⟩

/-- C3: `Sign` errors exactly on the nil mapping and succeeds on every
present mapping, including the empty one, which is signed over the empty
canonical string. -/
theorem c3_sign_error_iff_nil :
    (∀ s : Signer, s.Sign none = .error "params cannot be nil") ∧
    (∀ (s : Signer) (l : List (String × GoValue)), s.Sign (some l) = .ok (s.signatureOf l)) ∧
    (∀ s : Signer, s.buildSignatureString [] = "" ∧
      s.Sign (some []) = .ok (hexEncode (hmacSha256 (strBytes s.secret) (strBytes "")))) :=
  ⟨fun _ => rfl, fun _ _ => rfl, fun _ => ⟨rfl, rfl⟩⟩

/-- C4: For every present mapping and any candidate signature string,
`Verify` returns a Boolean, never an error — mismatches (including length
mismatches and malformed hex) surface as `false` — and `Verify` errors
exactly in the nil-mapping case of `Sign`, whose error it propagates. -/
theorem c4_verify_error_behavior :
    (∀ (s : Signer) (l : List (String × GoValue)) (sig : String),
      s.Verify (some l) sig =
        .ok (constantTimeCompare (strBytes (s.signatureOf l)) (strBytes sig))) ∧
    (∀ (s : Signer) (l : List (String × GoValue)) (sig : String),
      (s.Verify (some l) sig).isOk = true) ∧
    (∀ (s : Signer) (sig : String), s.Verify none sig = .error "params cannot be nil") :=
  ⟨fun _ _ _ => rfl, fun _ _ _ => rfl, fun _ _ => rfl⟩

/-- C5: Two present mappings holding the same set of (key, value) pairs —
in whatever order the caller iterated them — canonicalize identically and
receive the same signature from `Sign`. -/
theorem c5_order_independence :
    ∀ (s : Signer) (l1 l2 : List (String × GoValue)), l1.Perm l2 → NodupKeys l1 →
      s.buildSignatureString l1 = s.buildSignatureString l2 ∧
      s.Sign (some l1) = s.Sign (some l2) := by
  intro s l1 l2 hp hnd
  have hb := buildSignatureString_perm s hp hnd
  refine ⟨hb, ?_⟩
  show Except.ok (s.signatureOf l1) = Except.ok (s.signatureOf l2)
  unfold Signer.signatureOf
  rw [hb]

theorem c5_witness :
    ([("b", GoValue.str "2"), ("a", GoValue.str "1")] :
        List (String × GoValue)).Perm [("a", GoValue.str "1"), ("b", GoValue.str "2")] ∧
    NodupKeys [("b", GoValue.str "2"), ("a", GoValue.str "1")] ∧
    ((NewSigner "w5").buildSignatureString [("b", GoValue.str "2"), ("a", GoValue.str "1")] =
        (NewSigner "w5").buildSignatureString
          [("a", GoValue.str "1"), ("b", GoValue.str "2")] ∧
      (NewSigner "w5").Sign (some [("b", GoValue.str "2"), ("a", GoValue.str "1")]) =
        (NewSigner "w5").Sign (some [("a", GoValue.str "1"), ("b", GoValue.str "2")])) :=
  ⟨by decide, by decide,
    c5_order_independence (NewSigner "w5") _ _ (by decide) (by decide)⟩

/-- C6: For every present mapping (the empty one included), `Sign`
returns a 64-character string of lower-case hexadecimal characters — the
hex encoding of the 32-byte MAC tag. -/
theorem c6_signature_shape :
    ∀ (s : Signer) (l : List (String × GoValue)),
      s.Sign (some l) = .ok (s.signatureOf l) ∧
      (s.signatureOf l).length = 64 ∧
      (s.signatureOf l).data.all isLowerHexChar = true ∧
      (hmacSha256 (strBytes s.secret) (strBytes (s.buildSignatureString l))).length = 32 :=
  fun s l => ⟨rfl, signatureOf_length s l, signatureOf_lowerHex s l,
    hmacSha256_length _ _⟩

/-- C9: Canonicalization is not injective — keys and values are emitted
unescaped, so the single-entry mapping whose value contains `&` and `=`
collides with the two-entry mapping that spells the same text, and `Sign`
cannot tell them apart under any secret. -/
theorem c9_canonicalization_not_injective :
    ([("a", GoValue.str "1&b=2")] : List (String × GoValue)) ≠
      [("a", GoValue.str "1"), ("b", GoValue.str "2")] ∧
    NodupKeys [("a", GoValue.str "1&b=2")] ∧
    NodupKeys [("a", GoValue.str "1"), ("b", GoValue.str "2")] ∧
    (∀ s : Signer,
      s.buildSignatureString [("a", GoValue.str "1&b=2")] =
        s.buildSignatureString [("a", GoValue.str "1"), ("b", GoValue.str "2")] ∧
      s.Sign (some [("a", GoValue.str "1&b=2")]) =
        s.Sign (some [("a", GoValue.str "1"), ("b", GoValue.str "2")])) := by
  refine ⟨by decide, by decide, by decide, fun s => ⟨rfl, rfl⟩⟩

/-- C10: Keys are never filtered or transformed — only values are tested —
so an empty-string key with a non-empty value is kept, its pair `=v`
sorts before every other pair, and `Sign` succeeds on such a mapping. -/
theorem c10_empty_key_kept :
    ∀ (s : Signer) (l : List (String × GoValue)) (v : String),
      NodupKeys l → ("", GoValue.str v) ∈ l → v ≠ "" →
      (s.sigPairs l).head? = some ("=" ++ v) ∧
      s.Sign (some l) = .ok (s.signatureOf l) := by
  intro s l v hnd hmem hv
  refine ⟨?_, rfl⟩
  have hfilter : ("", GoValue.str v) ∈ l.filter (fun kv => !isNilOrEmptyStr kv.2) := by
    apply List.mem_filter.mpr
    refine ⟨hmem, ?_⟩
    simp [isNilOrEmptyStr, hv]
  have hkeys : "" ∈ sigKeys l := List.mem_map.mpr ⟨_, hfilter, rfl⟩
  have hsortmem : "" ∈ List.insertionSort keyLe (sigKeys l) :=
    (List.perm_insertionSort keyLe (sigKeys l)).mem_iff.mpr hkeys
  obtain ⟨t, ht⟩ := sorted_keys_head_empty _ (List.sorted_insertionSort keyLe _) hsortmem
  have hidx : goIndex l "" = GoValue.str v := goIndex_of_mem l hnd hmem
  unfold Signer.sigPairs
  rw [ht, List.filterMap_cons]
  simp only [hidx, Signer.valueToString]
  rw [if_neg hv]
  rfl

theorem c10_witness :
    NodupKeys [("k", GoValue.str "y"), ("", GoValue.str "x")] ∧
    ("", GoValue.str "x") ∈
      ([("k", GoValue.str "y"), ("", GoValue.str "x")] : List (String × GoValue)) ∧
    ("x" : String) ≠ "" ∧
    (((NewSigner "w10").sigPairs
        [("k", GoValue.str "y"), ("", GoValue.str "x")]).head? = some ("=" ++ "x") ∧
      (NewSigner "w10").Sign (some [("k", GoValue.str "y"), ("", GoValue.str "x")]) =
        .ok ((NewSigner "w10").signatureOf
          [("k", GoValue.str "y"), ("", GoValue.str "x")])) :=
  ⟨by decide, by decide, by decide,
    c10_empty_key_kept (NewSigner "w10") _ "x" (by decide) (by decide) (by decide)⟩

/-- C2: For every present mapping and secret, verifying the signature
`Sign` just produced succeeds with `true` and no error, while any string
obtained from it by flipping one character verifies to `false`. -/
theorem c2_verify_roundtrip_and_flip :
    (∀ (s : Signer) (l : List (String × GoValue)),
      s.Sign (some l) = .ok (s.signatureOf l) ∧
      s.Verify (some l) (s.signatureOf l) = .ok true) ∧
    (∀ (s : Signer) (l : List (String × GoValue)) (pre post : List Char) (c c' : Char),
      s.Sign (some l) = .ok (String.mk (pre ++ c :: post)) → c' ≠ c →
      s.Verify (some l) (String.mk (pre ++ c' :: post)) = .ok false) := by
  constructor
  · intro s l
    refine ⟨rfl, ?_⟩
    show Except.ok (constantTimeCompare (strBytes (s.signatureOf l))
      (strBytes (s.signatureOf l))) = Except.ok true
    rw [(constantTimeCompare_iff _ _).mpr rfl]
  · intro s l pre post c c' hsig hne
    have h0 : (Except.ok (s.signatureOf l) : Except String String) =
        .ok (String.mk (pre ++ c :: post)) := hsig
    have hdata : s.signatureOf l = String.mk (pre ++ c :: post) := by
      injection h0
    have hcmem : c ∈ (s.signatureOf l).data := by
      rw [hdata]
      show c ∈ pre ++ c :: post
      exact List.mem_append.mpr (Or.inr (List.mem_cons_self c post))
    have hc : c.toNat < 128 := signatureOf_ascii s l hcmem
    show Except.ok (constantTimeCompare (strBytes (s.signatureOf l))
      (strBytes (String.mk (pre ++ c' :: post)))) = Except.ok false
    rw [hdata]
    have hfalse : constantTimeCompare (strBytes (String.mk (pre ++ c :: post)))
        (strBytes (String.mk (pre ++ c' :: post))) = false := by
      by_contra hb
      rw [Bool.not_eq_false] at hb
      exact strBytes_flip_ne pre post hc hne ((constantTimeCompare_iff _ _).mp hb)
    rw [hfalse]

set_option maxRecDepth 20000 in
theorem c2_witness :
    (NewSigner "").Sign (some []) =
      .ok (String.mk ([] ++ 'b' ::
        "613679a0814d9ec772f95d778c35fc5ff1697c493715653c6c712144292c5ad".data)) ∧
    ('c' : Char) ≠ 'b' ∧
    (NewSigner "").Verify (some []) ((NewSigner "").signatureOf []) = .ok true ∧
    (NewSigner "").Verify (some [])
      (String.mk ([] ++ 'c' ::
        "613679a0814d9ec772f95d778c35fc5ff1697c493715653c6c712144292c5ad".data)) =
      .ok false :=
  ⟨by decide, by decide,
    (c2_verify_roundtrip_and_flip.1 (NewSigner "") []).2,
    c2_verify_roundtrip_and_flip.2 (NewSigner "") [] [] _ 'b' 'c' (by decide) (by decide)⟩

/-- C7: `Verify` compares the recomputed signature with the supplied one
through the fixed-time primitive: the comparison is exactly byte-list
equality, it is computed by a non-short-circuiting loop whose operation
count depends only on the input lengths, never on where or whether the
bytes first differ. -/
theorem c7_fixed_time_comparison :
    (∀ (s : Signer) (l : List (String × GoValue)) (sig : String),
      s.Verify (some l) sig =
        .ok (constantTimeCompare (strBytes (s.signatureOf l)) (strBytes sig))) ∧
    (∀ x y : List Nat, constantTimeCompare x y = true ↔ x = y) ∧
    (∀ x y : List Nat, (ctCompareTraced x y).1 = constantTimeCompare x y) ∧
    (∀ x y : List Nat, (ctCompareTraced x y).2 = if x.length = y.length then x.length else 0) :=
  ⟨fun _ _ _ => rfl, constantTimeCompare_iff, ctCompareTraced_fst, ctCompareTraced_snd⟩

/-- C8: Numeric values render in base 10 (integers) and in the shortest
round-trip decimal form without exponent notation (floats), so the
mapping `{"float64": 78.9, "int": 123, "int64": 456}` canonicalizes to
`"float64=78.9&int=123&int64=456"`; `5552093915617690 * 2^-46` is the
`float64` nearest `78.9` (the value of the Go literal). -/
theorem c8_numeric_rendering :
    roundToFP 53 789 10 = (5552093915617690, -46) ∧
    (∀ s : Signer, s.valueToString (.float64 5552093915617690 (-46)) = "78.9" ∧
      s.valueToString (.int 123) = "123" ∧
      s.valueToString (.int64 456) = "456") ∧
    (NewSigner "test").buildSignatureString
        [("int", .int 123), ("int64", .int64 456),
          ("float64", .float64 5552093915617690 (-46))] =
      "float64=78.9&int=123&int64=456" :=
  ⟨by decide, fun _ => ⟨rfl, rfl, rfl⟩, by decide⟩

end SeaverseSig

